import Mathlib

/- Shallow embedding of the Editor.js undo/redo plugin (src/index.js).

   Blocks carry an optional identity (JS blocks may lack an `id` field, in
   which case it reads as undefined), a type tag, and an opaque data payload
   modelled as an association list so that `Object.keys(data).length === 0`
   becomes emptiness of the list.  JSON.stringify equality on blocks,
   snapshots and entries is modelled as structural equality (the encoding is
   injective on this data model).  JavaScript array indexing, which yields
   undefined out of range or at negative indices, is modelled by `jsGet`
   returning an Option; dereferencing a possibly-undefined value is a
   TypeError in JS and is modelled by the enclosing operation returning
   `none`.  The external collaborators (the live block API, the caret API,
   the DOM) are modelled as an oracle `Env`; the mutation calls the plugin
   issues are collected as a trace of `Op` events, in program order, with
   `Op.suppress` marking the write of `shouldSaveHistory := false`. -/

structure Block where
  id : Option String
  type : String
  data : List (String × String)
deriving DecidableEq, Repr

abbrev Snapshot := List Block

structure Entry where
  index : Int
  state : Snapshot
  caretIndex : Option Int
deriving DecidableEq, Repr

structure History where
  stack : List Entry
  position : Int
  maxLength : Nat
  shouldSaveHistory : Bool
  readOnly : Bool
  initialItem : Option Entry
  defaultBlock : String
deriving DecidableEq, Repr

/- Oracle for the external collaborators: `blocks.getCurrentBlockIndex()`,
   `blocks.getBlocksCount()`, `blocks.getBlockByIndex(i)`,
   `blocks.getById(id)` and the caret-position primitive used by
   `getCaretIndex`. -/
structure Env where
  currentBlockIndex : Int
  blocksCount : Int
  getBlockByIndex : Int → Option Block
  getById : Option String → Option Block
  caretPos : Int → Int

/- Trace events: external mutation calls issued by the plugin, plus the
   `onUpdate` notification and the `shouldSaveHistory := false` write. -/
inductive Op where
  | suppress
  | onUpdate
  | insert (type : String) (data : List (String × String)) (atIndex : Int) (focus : Bool)
  | delete (atIndex : Int)
  | update (blockId : Option String) (data : List (String × String))
  | render (blocks : Snapshot) (replaceAll : Bool)
  | caretToBlock (index : Int) (pos : String)
  | deferredSetPos (index : Int) (caretIndex : Int)
deriving DecidableEq, Repr

/-- JavaScript array read `a[i]`: undefined (none) when out of range or negative. -/
def jsGet {α : Type} (l : List α) (i : Int) : Option α :=
  if i < 0 then none else l.get? i.toNat

/-- JavaScript `a.slice(0, e)`: a negative end counts from the end of the array. -/
def jsSliceTo {α : Type} (l : List α) (e : Int) : List α :=
  if e < 0 then l.take ((l.length : Int) + e).toNat else l.take e.toNat

/-- `truncate(stack, limit)`: `while (stack.length > limit) stack.shift()`. -/
def truncate : List Entry → Nat → List Entry
  | [], _ => []
  | e :: rest, limit =>
    if rest.length + 1 > limit then truncate rest limit else e :: rest

/-- `count()`: `this.stack.length - 1` (the initial entry is not a change). -/
def count (h : History) : Int :=
  (h.stack.length : Int) - 1

/-- `canUndo()`: `!this.readOnly && this.position > 0`. -/
def canUndo (h : History) : Bool :=
  !h.readOnly && decide (0 < h.position)

/-- `canRedo()`: `!this.readOnly && this.position < this.count()`. -/
def canRedo (h : History) : Bool :=
  !h.readOnly && decide (h.position < count h)

/-- `clear()`: reset the stack to the initial item (or a default empty block)
at position 0, then notify. -/
def History.clear (h : History) : History × List Op :=
  ({ h with
      stack :=
        match h.initialItem with
        | some it => [it]
        | none => [{ index := 0,
                     state := [{ id := none, type := h.defaultBlock, data := [] }],
                     caretIndex := none }],
      position := 0 },
   [Op.onUpdate])

/-- The history state right after the constructor runs (`this.initialItem = null;
this.clear()`), for a given `maxLength` and default block type. -/
def initialHistory (maxLength : Nat) (defaultBlock : String) : History :=
  (History.clear
    { stack := [], position := 0, maxLength := maxLength,
      shouldSaveHistory := true, readOnly := false,
      initialItem := none, defaultBlock := defaultBlock }).1

/-- `editorDidUpdate(newData)`: false when `newData` is empty, true when the
lengths differ, otherwise JSON.stringify inequality with the snapshot at the
current position.  Reading `this.stack[this.position]` of an out-of-range
position would be a TypeError (none). -/
def editorDidUpdate (h : History) (newData : Snapshot) : Option Bool :=
  match jsGet h.stack h.position with
  | none => none
  | some e =>
    if newData.length = 0 then some false
    else if newData.length ≠ e.state.length then some true
    else some (decide (e.state ≠ newData))

/-- The entry `save(state)` pushes: the focused live block index, shifted back
by the block-count delta when it does not exist in `state`; the caret offset is
recorded only for paragraph/header blocks. -/
def saveEntry (env : Env) (state : Snapshot) : Entry :=
  let index := env.currentBlockIndex
  let indexInState :=
    if (jsGet state index).isNone then index - (env.blocksCount - (state.length : Int))
    else index
  let caretIndex :=
    match jsGet state indexInState with
    | some b =>
      if b.type = "paragraph" ∨ b.type = "header" then some (env.caretPos index)
      else none
    | none => none
  { index := indexInState, state := state, caretIndex := caretIndex }

/-- `save(state)`: truncate when `position >= maxLength`, clamp the position to
the stack, drop entries beyond the position, push the new entry, advance, notify. -/
def save (env : Env) (h : History) (state : Snapshot) : History × List Op :=
  let stack1 :=
    if h.position ≥ (h.maxLength : Int) then truncate h.stack h.maxLength else h.stack
  let pos1 : Int := min h.position ((stack1.length : Int) - 1)
  ({ h with
      stack := jsSliceTo stack1 (pos1 + 1) ++ [saveEntry env state],
      position := pos1 + 1 },
   [Op.onUpdate])

/-- `registerChange()`: re-derive readOnly from the DOM, then (unless readOnly)
schedule a commit when the suppression flag allows it and reset the flag.  The
commit itself (the `.then` callback) runs after the synchronous flag reset. -/
structure ObsEnv where
  domReadOnly : Bool
  savedBlocks : Snapshot

def registerChange (obs : ObsEnv) (env : Env) (h : History) : Option (History × List Op) :=
  let h0 := { h with readOnly := obs.domReadOnly }
  if h0.readOnly then some (h0, [])
  else
    let h1 := { h0 with shouldSaveHistory := true }
    if h0.shouldSaveHistory then
      match editorDidUpdate h1 obs.savedBlocks with
      | none => none
      | some true => some (save env h1 obs.savedBlocks)
      | some false => some (h1, [])
    else some (h1, [])

/-- `blockWasDropped(state, compState)`: equal lengths and some position with a
differing identity. -/
def blockWasDropped (state compState : Snapshot) : Bool :=
  if state.length = compState.length then
    (List.zip state compState).any fun p => decide (p.1.id ≠ p.2.id)
  else false

/-- `blockWasSkipped(state, compState)`: the lengths differ. -/
def blockWasSkipped (state compState : Snapshot) : Bool :=
  decide (state.length ≠ compState.length)

/-- `contentChangedInNoFocusBlock(index, compIndex)`: the focus indices differ. -/
def contentChangedInNoFocusBlock (index compIndex : Int) : Bool :=
  decide (index ≠ compIndex)

/-- `blockWasDeleted(state, compState)`: `state` is strictly longer. -/
def blockWasDeleted (state compState : Snapshot) : Bool :=
  decide (state.length > compState.length)

/-- `contentWasCopied(state, compState, index)`: the focused block's data is
empty and the following block differs between the snapshots.  Reading
`state[index].data` of an undefined element is a TypeError (none). -/
def contentWasCopied (state compState : Snapshot) (index : Int) : Option Bool :=
  match jsGet state index with
  | none => none
  | some b =>
    some (b.data.isEmpty && decide (jsGet compState (index + 1) ≠ jsGet state (index + 1)))

/-- Loop body of `insertDeletedBlock`: walk `state` and `compState` in lockstep
(`i` is the absolute position); at the first position where `compState` has no
element or the identities differ, insert that block of `state` there and set
the caret, then stop. -/
def insertDeletedBlockGo (index : Int) : List Block → List Block → Nat → List Op
  | [], _, _ => []
  | b :: _, [], i =>
    [Op.insert b.type b.data (i : Int) true, Op.caretToBlock index "end"]
  | b :: rest, c :: crest, i =>
    if b.id ≠ c.id then
      [Op.insert b.type b.data (i : Int) true, Op.caretToBlock index "end"]
    else insertDeletedBlockGo index rest crest (i + 1)

def insertDeletedBlock (state compState : Snapshot) (index : Int) : List Op :=
  insertDeletedBlockGo index state compState 0

/-- `setCaretIndex(index, caretIndex)`: the guard is `caretIndex && caretIndex
!== -1`, so null, undefined, 0 and -1 all fall to the end-of-block branch; any
other recorded offset is restored with a deferred `setPos`. -/
def setCaretIndex (index : Int) (caretIndex : Option Int) : List Op :=
  match caretIndex with
  | some c =>
    if c ≠ 0 ∧ c ≠ -1 then [Op.deferredSetPos index c]
    else [Op.caretToBlock index "end"]
  | none => [Op.caretToBlock index "end"]

/-- `this.stack[i].index = idx`: in-place reassignment of one entry's focus
index. -/
def setEntryIndex (st : List Entry) (i : Int) (idx : Int) : List Entry :=
  match jsGet st i with
  | some e => st.set i.toNat { e with index := idx }
  | none => st

/-- The unconditional tail of `undo`/`redo`: if a live block exists at `index`,
overwrite its data from the target snapshot and restore the caret.  Reading
`state[index].data` of an undefined element is a TypeError (none). -/
def finalBlockOps (env : Env) (state : Snapshot) (index : Int) (caretIndex : Option Int) :
    Option (List Op) :=
  match env.getBlockByIndex index with
  | some block =>
    match jsGet state index with
    | some sb => some (Op.update block.id sb.data :: setCaretIndex index caretIndex)
    | none => none
  | none => some []

/-- The classification branches of `undo`, in source order; `none` models a
TypeError in a branch (`state[index].data` in `contentWasCopied`, destructuring
`getBlockByIndex(nextIndex)` or reading `state[nextIndex].data`). -/
def undoBranchOps (env : Env) (nextIndex : Int) (nextState : Snapshot) (state : Snapshot)
    (index : Int) (caretIndex : Option Int) : Option (List Op) :=
  if blockWasDeleted state nextState then
    some (insertDeletedBlock state nextState index)
  else
    match contentWasCopied state nextState index with
    | none => none
    | some true => some [Op.render state true, Op.caretToBlock index "end"]
    | some false =>
      if decide (index < nextIndex) && blockWasSkipped state nextState then
        some [Op.delete nextIndex, Op.caretToBlock index "end"]
      else if env.blocksCount > (state.length : Int) then
        some (Op.render state true :: setCaretIndex index caretIndex)
      else if blockWasDropped state nextState then
        some [Op.render state true, Op.caretToBlock index "end"]
      else if contentChangedInNoFocusBlock index nextIndex then
        match env.getBlockByIndex nextIndex, jsGet state nextIndex with
        | some blk, some sb => some (Op.update blk.id sb.data :: setCaretIndex index caretIndex)
        | _, _ => none
      else some []

/-- The focus-index repair at the top of `undo`: `if (!state[index]) index -= 1`. -/
def fixedIndex (eCur : Entry) : Int :=
  if (jsGet eCur.state eCur.index).isNone then eCur.index - 1 else eCur.index

/-- `undo()`: when permitted, read the entry being left and (after decrementing
the position) the entry being entered, set the suppression flag, notify, fix a
stale focus index in place, run the first matching classification branch, then
unconditionally sync the focused block. -/
def undo (env : Env) (h : History) : Option (History × List Op) :=
  if canUndo h then
    match jsGet h.stack h.position, jsGet h.stack (h.position - 1) with
    | some eNext, some eCur =>
      match undoBranchOps env eNext.index eNext.state eCur.state (fixedIndex eCur)
              eCur.caretIndex,
            finalBlockOps env eCur.state (fixedIndex eCur) eCur.caretIndex with
      | some bops, some fops =>
        some ({ h with
                  position := h.position - 1,
                  stack :=
                    if (jsGet eCur.state eCur.index).isNone then
                      setEntryIndex h.stack (h.position - 1) (fixedIndex eCur)
                    else h.stack,
                  shouldSaveHistory := false },
              Op.suppress :: Op.onUpdate :: (bops ++ fops))
      | _, _ => none
    | _, _ => none
  else some (h, [])

/-- `insertBlock(state, i)` iterated over the skipped suffix: insert every
block of `state` from position `start` on (the blocks beyond the previous
snapshot's length). -/
def insertLoopGo : List Block → Nat → List Op
  | [], _ => []
  | b :: rest, i => Op.insert b.type b.data (i : Int) true :: insertLoopGo rest (i + 1)

/-- `updateModifiedBlock(state, index)`: update `state[index-1]` if the live
editor still has it, otherwise re-render; reading `.id` of an undefined element
is a TypeError (none). -/
def updateModifiedBlock (env : Env) (state : Snapshot) (index : Int) : Option (List Op) :=
  match jsGet state (index - 1) with
  | none => none
  | some block =>
    if (env.getById block.id).isSome then some [Op.update block.id block.data]
    else some [Op.render state true]

/-- `insertSkippedBlocks(prevState, state, index)`: insert the blocks beyond
the previous snapshot's length, then repair the block before the insertion
point when it changed. -/
def insertSkippedBlocks (env : Env) (prevState state : Snapshot) (index : Int) :
    Option (List Op) :=
  let inserts := insertLoopGo (state.drop prevState.length) prevState.length
  if jsGet prevState (index - 1) ≠ jsGet state (index - 1) then
    match updateModifiedBlock env state index with
    | some u => some (inserts ++ u)
    | none => none
  else some inserts

/-- `prevState.findIndex((block, i) => !state.some(sb => sb.id === block.id) ||
(state[i] && state[i].id !== block.id))`. -/
def redoDeletedIndexGo (state : Snapshot) : List Block → Nat → Int
  | [], _ => -1
  | b :: rest, i =>
    if (!(state.any fun sb => decide (sb.id = b.id))) ||
        (match jsGet state (i : Int) with
         | some sb => decide (sb.id ≠ b.id)
         | none => false) then (i : Int)
    else redoDeletedIndexGo state rest (i + 1)

def redoDeletedIndex (prevState state : Snapshot) : Int :=
  redoDeletedIndexGo state prevState 0

/-- The classification branches of `redo`, in source order; `pos'` is the
already-incremented position (the `this.position !== 1` guard of the dropped
branch reads it). -/
def redoBranchOps (env : Env) (pos' : Int) (prevState state : Snapshot) (index : Int) :
    Option (List Op) :=
  if blockWasDeleted prevState state then
    let deletedIndex := redoDeletedIndex prevState state
    if deletedIndex ≠ -1 then
      some [Op.delete deletedIndex,
            Op.caretToBlock (min deletedIndex ((state.length : Int) - 1)) "end"]
    else some []
  else if blockWasSkipped state prevState then
    match insertSkippedBlocks env prevState state index with
    | some ops => some (ops ++ [Op.caretToBlock index "end"])
    | none => none
  else if blockWasDropped state prevState && decide (pos' ≠ 1) then
    some [Op.render state true, Op.caretToBlock index "end"]
  else some []

/-- `redo()`: when permitted, increment the position, set the suppression flag,
read the target entry and the previous one, run the first matching branch,
notify, then unconditionally sync the focused block. -/
def redo (env : Env) (h : History) : Option (History × List Op) :=
  if canRedo h then
    match jsGet h.stack (h.position + 1), jsGet h.stack h.position with
    | some eTgt, some ePrev =>
      match redoBranchOps env (h.position + 1) ePrev.state eTgt.state eTgt.index,
            finalBlockOps env eTgt.state eTgt.index eTgt.caretIndex with
      | some bops, some fops =>
        some ({ h with
                  position := h.position + 1,
                  shouldSaveHistory := false },
              Op.suppress :: (bops ++ (Op.onUpdate :: fops)))
      | _, _ => none
    | _, _ => none
  else some (h, [])

/-- Folding a sequence of commits. -/
def saveSeq (env : Env) (h : History) (states : List Snapshot) : History :=
  states.foldl (fun acc s => (save env acc s).1) h

/-- `undo()` iterated `k` times (propagating a TypeError). -/
def undoN (env : Env) : Nat → History → Option History
  | 0, h => some h
  | Nat.succ k, h =>
    match undo env h with
    | some p => undoN env k p.1
    | none => none

/-- `redo()` iterated `k` times (propagating a TypeError). -/
def redoN (env : Env) : Nat → History → Option History
  | 0, h => some h
  | Nat.succ k, h =>
    match redo env h with
    | some p => redoN env k p.1
    | none => none

/-- The stack invariant of the data model: the position is in bounds (hence the
stack is non-empty). -/
def StackInv (h : History) : Prop :=
  0 ≤ h.position ∧ h.position < (h.stack.length : Int)

instance (h : History) : Decidable (StackInv h) := by
  unfold StackInv; infer_instance

/- ------------------------------------------------------------------ -/
/- Helper lemmas                                                      -/
/- ------------------------------------------------------------------ -/

theorem truncate_length (st : List Entry) (lim : Nat) :
    (truncate st lim).length = min st.length lim := by
  induction st with
  | nil => simp [truncate]
  | cons e rest ih =>
    simp only [truncate, List.length_cons]
    by_cases hgt : rest.length + 1 > lim
    · rw [if_pos hgt, ih]; omega
    · rw [if_neg hgt]; simp only [List.length_cons]; omega

theorem jsSliceTo_length {α : Type} (l : List α) (e : Int) (he : 0 ≤ e) :
    (jsSliceTo l e).length = min e.toNat l.length := by
  unfold jsSliceTo
  rw [if_neg (by omega)]
  exact List.length_take _ _

theorem jsSliceTo_all {α : Type} (l : List α) (e : Int) (he : (l.length : Int) ≤ e) :
    jsSliceTo l e = l := by
  unfold jsSliceTo
  rw [if_neg (by omega)]
  exact List.take_all_of_le (by omega)

theorem jsGet_nonneg {α : Type} (l : List α) (i : Int) (hi : 0 ≤ i) :
    jsGet l i = l.get? i.toNat := by
  unfold jsGet
  rw [if_neg (by omega)]

theorem jsGet_some_nonneg {α : Type} (l : List α) (i : Int) (a : α)
    (h : jsGet l i = some a) : 0 ≤ i := by
  unfold jsGet at h
  by_cases hi : i < 0
  · rw [if_pos hi] at h; exact absurd h (by simp)
  · omega

theorem list_set_self {α : Type} (l : List α) (n : Nat) (a : α) (h : l.get? n = some a) :
    l.set n a = l := by
  induction l generalizing n with
  | nil => simp at h
  | cons x xs ih =>
    cases n with
    | zero =>
      simp only [List.get?] at h
      cases h
      rfl
    | succ m =>
      simp only [List.get?] at h
      simp only [List.set]
      rw [ih m h]

theorem setEntryIndex_length (st : List Entry) (i idx : Int) :
    (setEntryIndex st i idx).length = st.length := by
  unfold setEntryIndex
  cases h : jsGet st i <;> simp [List.length_set]

theorem setEntryIndex_map_state (st : List Entry) (i idx : Int) :
    (setEntryIndex st i idx).map Entry.state = st.map Entry.state := by
  unfold setEntryIndex
  cases h : jsGet st i with
  | none => rfl
  | some e =>
    have hg : st.get? i.toNat = some e := by
      have hnn := jsGet_some_nonneg st i e h
      rw [jsGet_nonneg st i hnn] at h
      exact h
    rw [List.map_set]
    exact list_set_self _ _ _ (by rw [List.get?_map, hg]; rfl)

theorem canUndo_iff (h : History) :
    canUndo h = true ↔ h.readOnly = false ∧ 0 < h.position := by
  simp [canUndo]

theorem canRedo_iff (h : History) :
    canRedo h = true ↔ h.readOnly = false ∧ h.position < count h := by
  simp [canRedo]

theorem save_position_tail (env : Env) (h : History) (s : Snapshot)
    (hpos : 0 ≤ h.position) :
    (save env h s).1.position = (((save env h s).1.stack.length : Int)) - 1 := by
  unfold save
  simp only []
  set stack1 :=
    (if h.position ≥ (h.maxLength : Int) then truncate h.stack h.maxLength else h.stack)
    with hs1
  set pos1 : Int := min h.position ((stack1.length : Int) - 1) with hp1
  have hmin := min_choice h.position ((stack1.length : Int) - 1)
  have hge : 0 ≤ pos1 + 1 := by
    rcases hmin with hm | hm <;> rw [hp1, hm] <;> omega
  have hle : pos1 ≤ (stack1.length : Int) - 1 := by
    rw [hp1]; exact min_le_right _ _
  have htn : (pos1 + 1).toNat ≤ stack1.length := by omega
  rw [List.length_append, jsSliceTo_length _ _ hge, min_eq_left htn]
  simp only [List.length_singleton]
  push_cast
  omega

theorem save_stack_inv (env : Env) (h : History) (s : Snapshot)
    (hpos : 0 ≤ h.position) : StackInv (save env h s).1 := by
  have ht := save_position_tail env h s hpos
  constructor
  · unfold save
    simp only []
    have hmin := min_choice h.position
      (((if h.position ≥ (h.maxLength : Int) then truncate h.stack h.maxLength
         else h.stack).length : Int) - 1)
    rcases hmin with hm | hm <;> rw [hm] <;> omega
  · rw [ht]
    have : 1 ≤ (save env h s).1.stack.length := by
      unfold save
      simp only []
      rw [List.length_append]
      simp
    omega

theorem save_length_le (env : Env) (h : History) (s : Snapshot)
    (hpos : 0 ≤ h.position) :
    (save env h s).1.stack.length ≤ h.maxLength + 1 := by
  unfold save
  simp only []
  set stack1 :=
    (if h.position ≥ (h.maxLength : Int) then truncate h.stack h.maxLength else h.stack)
    with hs1
  set pos1 : Int := min h.position ((stack1.length : Int) - 1) with hp1
  have hmin := min_choice h.position ((stack1.length : Int) - 1)
  have hge : 0 ≤ pos1 + 1 := by
    rcases hmin with hm | hm <;> rw [hp1, hm] <;> omega
  have hle : pos1 ≤ (stack1.length : Int) - 1 := by
    rw [hp1]; exact min_le_right _ _
  have hle2 : pos1 ≤ h.position := by
    rw [hp1]; exact min_le_left _ _
  rw [List.length_append, jsSliceTo_length _ _ hge]
  by_cases hc : h.position ≥ (h.maxLength : Int)
  · have h1 : stack1.length = min h.stack.length h.maxLength := by
      rw [hs1, if_pos hc]; exact truncate_length _ _
    have h2 : stack1.length ≤ h.maxLength := by omega
    simp only [List.length_singleton]
    omega
  · have h2 : pos1 + 1 ≤ (h.maxLength : Int) := by omega
    simp only [List.length_singleton]
    omega

theorem save_canRedo_false (env : Env) (h : History) (s : Snapshot)
    (hpos : 0 ≤ h.position) : canRedo (save env h s).1 = false := by
  have ht := save_position_tail env h s hpos
  unfold canRedo count
  rw [ht]
  simp

theorem save_append (env : Env) (h : History) (s : Snapshot)
    (hne : h.stack ≠ [])
    (htail : h.position = (h.stack.length : Int) - 1)
    (hlen : h.stack.length ≤ h.maxLength) :
    (save env h s).1 =
      { h with stack := h.stack ++ [saveEntry env s], position := h.position + 1 } := by
  have hne' : 1 ≤ h.stack.length := by
    cases hs : h.stack with
    | nil => exact absurd hs hne
    | cons a l => simp
  unfold save
  simp only []
  rw [if_neg (by omega)]
  have hmin : min h.position ((h.stack.length : Int) - 1) = h.position := by
    rw [htail]; exact min_self _
  rw [hmin, jsSliceTo_all _ _ (by omega)]

theorem undo_spec (env : Env) (h : History) (h' : History) (ops : List Op)
    (hu : undo env h = some (h', ops)) :
    (canUndo h = false ∧ h' = h ∧ ops = []) ∨
    (canUndo h = true ∧
      h'.position = h.position - 1 ∧
      h'.stack.map Entry.state = h.stack.map Entry.state ∧
      h'.stack.length = h.stack.length ∧
      h'.maxLength = h.maxLength ∧
      h'.readOnly = h.readOnly ∧
      h'.initialItem = h.initialItem ∧
      h'.defaultBlock = h.defaultBlock ∧
      h'.shouldSaveHistory = false ∧
      ∃ rest, ops = Op.suppress :: Op.onUpdate :: rest) := by
  unfold undo at hu
  split at hu
  case isTrue hc =>
    right
    split at hu
    case _ eNext eCur =>
      split at hu
      case _ bops fops =>
        simp only [Option.some.injEq, Prod.mk.injEq] at hu
        obtain ⟨hh, hops⟩ := hu
        subst hops
        subst hh
        refine ⟨hc, rfl, ?_, ?_, rfl, rfl, rfl, rfl, rfl, ⟨_, rfl⟩⟩
        · dsimp only
          split
          · exact setEntryIndex_map_state _ _ _
          · rfl
        · dsimp only
          split
          · exact setEntryIndex_length _ _ _
          · rfl
      case _ => exact absurd hu (by simp)
    case _ => exact absurd hu (by simp)
  case isFalse hc =>
    left
    simp only [Option.some.injEq, Prod.mk.injEq] at hu
    obtain ⟨hh, hops⟩ := hu
    exact ⟨by simpa using hc, hh.symm, hops.symm⟩

theorem redo_spec (env : Env) (h : History) (h' : History) (ops : List Op)
    (hr : redo env h = some (h', ops)) :
    (canRedo h = false ∧ h' = h ∧ ops = []) ∨
    (canRedo h = true ∧
      h' = { h with position := h.position + 1, shouldSaveHistory := false } ∧
      ∃ rest, ops = Op.suppress :: rest) := by
  unfold redo at hr
  split at hr
  case isTrue hc =>
    right
    split at hr
    case _ eTgt ePrev =>
      split at hr
      case _ bops fops =>
        simp only [Option.some.injEq, Prod.mk.injEq] at hr
        obtain ⟨hh, hops⟩ := hr
        exact ⟨hc, hh.symm, ⟨_, hops.symm⟩⟩
      case _ => exact absurd hr (by simp)
    case _ => exact absurd hr (by simp)
  case isFalse hc =>
    left
    simp only [Option.some.injEq, Prod.mk.injEq] at hr
    obtain ⟨hh, hops⟩ := hr
    exact ⟨by simpa using hc, hh.symm, hops.symm⟩

theorem undoN_spec (env : Env) (k : Nat) (h h' : History)
    (hro : h.readOnly = false) (hk : (k : Int) ≤ h.position)
    (hrun : undoN env k h = some h') :
    h'.position = h.position - k ∧
    h'.stack.map Entry.state = h.stack.map Entry.state ∧
    h'.stack.length = h.stack.length ∧
    h'.readOnly = false := by
  induction k generalizing h with
  | zero =>
    unfold undoN at hrun
    cases hrun
    exact ⟨by omega, rfl, rfl, hro⟩
  | succ k ih =>
    unfold undoN at hrun
    cases hstep : undo env h with
    | none => rw [hstep] at hrun; exact absurd hrun (by simp)
    | some p =>
      rw [hstep] at hrun
      have hcan : canUndo h = true := by
        rw [canUndo_iff]
        constructor
        · exact hro
        · push_cast at hk; omega
      rcases undo_spec env h p.1 p.2 (by rw [hstep]) with
        ⟨hcf, _, _⟩ | ⟨_, hp, hmap, hlen, _, hr, _, _, _, _⟩
      · rw [hcf] at hcan; exact absurd hcan (by simp)
      · have hk' : (k : Int) ≤ p.1.position := by
          rw [hp]; push_cast at hk ⊢; omega
        obtain ⟨g1, g2, g3, g4⟩ := ih p.1 (by rw [hr, hro]) hk' hrun
        refine ⟨?_, by rw [g2, hmap], by rw [g3, hlen], g4⟩
        rw [g1, hp]; push_cast; ring

theorem redoN_spec (env : Env) (k : Nat) (h h' : History)
    (hro : h.readOnly = false) (hk : h.position + k ≤ count h)
    (hrun : redoN env k h = some h') :
    h'.position = h.position + k ∧
    h'.stack = h.stack ∧
    h'.readOnly = false := by
  induction k generalizing h with
  | zero =>
    unfold redoN at hrun
    cases hrun
    exact ⟨by omega, rfl, hro⟩
  | succ k ih =>
    unfold redoN at hrun
    cases hstep : redo env h with
    | none => rw [hstep] at hrun; exact absurd hrun (by simp)
    | some p =>
      rw [hstep] at hrun
      have hcan : canRedo h = true := by
        rw [canRedo_iff]
        constructor
        · exact hro
        · push_cast at hk; omega
      rcases redo_spec env h p.1 p.2 (by rw [hstep]) with
        ⟨hcf, _, _⟩ | ⟨_, hp, _⟩
      · rw [hcf] at hcan; exact absurd hcan (by simp)
      · have hstk : p.1.stack = h.stack := by rw [hp]
        have hppos : p.1.position = h.position + 1 := by rw [hp]
        have hpro : p.1.readOnly = false := by rw [hp]; exact hro
        have hk' : p.1.position + k ≤ count p.1 := by
          unfold count at hk ⊢
          rw [hstk, hppos]
          push_cast at hk ⊢
          omega
        obtain ⟨g1, g2, g3⟩ := ih p.1 hpro hk' hrun
        refine ⟨?_, by rw [g2, hstk], g3⟩
        rw [g1, hppos]; push_cast; ring

theorem saveSeq_spec (env : Env) (states : List Snapshot) (h : History)
    (hne : h.stack ≠ [])
    (htail : h.position = (h.stack.length : Int) - 1)
    (hlen : h.stack.length + states.length ≤ h.maxLength + 1) :
    (saveSeq env h states).stack.map Entry.state
        = h.stack.map Entry.state ++ states ∧
    (saveSeq env h states).position = h.position + states.length ∧
    (saveSeq env h states).stack.length = h.stack.length + states.length ∧
    (saveSeq env h states).readOnly = h.readOnly ∧
    (saveSeq env h states).maxLength = h.maxLength ∧
    (saveSeq env h states).initialItem = h.initialItem ∧
    (saveSeq env h states).defaultBlock = h.defaultBlock := by
  induction states generalizing h with
  | nil =>
    simp [saveSeq]
  | cons s rest ih =>
    have hstep := save_append env h s hne htail (by simp at hlen; omega)
    have hne2 : (save env h s).1.stack ≠ [] := by
      rw [hstep]; simp
    have htail2 : (save env h s).1.position = (((save env h s).1.stack.length : Int)) - 1 := by
      rw [hstep]; dsimp only; rw [List.length_append, htail]; push_cast; simp
    have hlen2 : (save env h s).1.stack.length + rest.length ≤ (save env h s).1.maxLength + 1 := by
      rw [hstep]; dsimp only; rw [List.length_append]; simp at hlen ⊢; omega
    have hfold : saveSeq env h (s :: rest) = saveSeq env (save env h s).1 rest := by
      simp [saveSeq]
    rw [hfold]
    obtain ⟨g1, g2, g3, g4, g5, g6, g7⟩ := ih (save env h s).1 hne2 htail2 hlen2
    refine ⟨?_, ?_, ?_, ?_, ?_, ?_, ?_⟩
    · rw [g1, hstep]; dsimp only; rw [List.map_append]; simp [saveEntry]
    · rw [g2, hstep]; dsimp only; simp only [List.length_cons]; push_cast; ring
    · rw [g3, hstep]; dsimp only
      simp only [List.length_append, List.length_singleton, List.length_cons,
        List.length_nil]
      omega
    · rw [g4, hstep]
    · rw [g5, hstep]
    · rw [g6, hstep]
    · rw [g7, hstep]

/- ------------------------------------------------------------------ -/
/- Concrete fixtures for witnesses and counterexamples                 -/
/- ------------------------------------------------------------------ -/

def blkA : Block := { id := some "a", type := "paragraph", data := [("text", "A")] }
def blkB : Block := { id := some "b", type := "paragraph", data := [("text", "B")] }
def blkC : Block := { id := some "c", type := "paragraph", data := [("text", "C")] }

/-- A benign collaborator oracle: one live block, no block lookups succeed. -/
def envNull : Env :=
  { currentBlockIndex := 0, blocksCount := 1,
    getBlockByIndex := fun _ => none, getById := fun _ => none,
    caretPos := fun _ => 5 }

def eW0 : Entry := { index := 0, state := [blkA], caretIndex := some 3 }

/-- A mid-stack history: three entries, position 1, not read-only. -/
def hW : History :=
  { stack := [eW0, eW0, eW0], position := 1, maxLength := 30,
    shouldSaveHistory := true, readOnly := false, initialItem := none,
    defaultBlock := "paragraph" }

/- ------------------------------------------------------------------ -/
/- Claims                                                              -/
/- ------------------------------------------------------------------ -/

/-- C1, counterexample: with `maxLength = 1`, a single `save` call on the
freshly constructed history leaves the stack at length 2, which exceeds
`maxLength` — the claimed bound `length(stack) <= maxLength` after each `save`
call is false. -/
theorem c1_counterexample :
    ¬ ((save envNull (initialHistory 1 "paragraph") [blkA]).1.stack.length ≤
        (save envNull (initialHistory 1 "paragraph") [blkA]).1.maxLength) := by
  decide

/-- C1, amended: after every `save` call from a state with non-negative
position (true of every reachable state), the stack length is at most
`maxLength + 1`; since the bound is re-established by each call, it holds after
each call of every sequence of `save` calls. -/
theorem c1_amended (env : Env) (h : History) (s : Snapshot)
    (hpos : 0 ≤ h.position) :
    (save env h s).1.stack.length ≤ h.maxLength + 1 :=
  save_length_le env h s hpos

/-- C1, witness for the amended bound at a concrete input. -/
theorem c1_witness :
    (save envNull hW [blkB]).1.stack.length ≤ hW.maxLength + 1 :=
  c1_amended envNull hW [blkB] (by decide)

/-- C3: after any `save` call from a state with non-negative position, the new
position points at the last stack entry — every entry beyond the current
position was discarded — and `canRedo()` is false; in particular this holds for
a commit that follows an undo. -/
theorem c3_redo_invalidation (env : Env) (h : History) (s : Snapshot)
    (hpos : 0 ≤ h.position) :
    (save env h s).1.position = (((save env h s).1.stack.length : Int)) - 1 ∧
    canRedo (save env h s).1 = false :=
  ⟨save_position_tail env h s hpos, save_canRedo_false env h s hpos⟩

/-- The concrete history reached from `hW` by one `undo()` call. -/
def hC3 : History := ((undo envNull hW).getD (hW, [])).1

/-- C3, witness: a commit right after a concrete undo leaves no redo entries
and `canRedo()` is false. -/
theorem c3_witness :
    (save envNull hC3 [blkB]).1.position =
      (((save envNull hC3 [blkB]).1.stack.length : Int)) - 1 ∧
    canRedo (save envNull hC3 [blkB]).1 = false :=
  c3_redo_invalidation envNull hC3 [blkB] (by decide)

/-- C10: calling `save` directly with the snapshot stored at the current
position (deep-equal is structural equality in this model) still appends a new
entry and increments both the position and `count()`: `save` contains no
deep-equality guard (the `editorDidUpdate` guard runs only on the
`registerChange` path).  Stated for a tail position within the retention bound,
the state in which a direct call is distinguishable from the guarded path. -/
theorem c10_save_has_no_guard (env : Env) (h : History) (e : Entry)
    (he : jsGet h.stack h.position = some e)
    (htail : h.position = (h.stack.length : Int) - 1)
    (hlen : h.stack.length ≤ h.maxLength) :
    (save env h e.state).1.stack.length = h.stack.length + 1 ∧
    (save env h e.state).1.position = h.position + 1 ∧
    count (save env h e.state).1 = count h + 1 := by
  have hne : h.stack ≠ [] := by
    intro hnil
    rw [hnil] at he
    unfold jsGet at he
    split at he <;> simp_all
  have hstep := save_append env h e.state hne htail hlen
  refine ⟨?_, ?_, ?_⟩
  · rw [hstep]; dsimp only; rw [List.length_append]; simp
  · rw [hstep]
  · unfold count
    rw [hstep]; dsimp only
    rw [List.length_append]
    simp only [List.length_singleton]
    push_cast
    ring

/-- A one-entry tail-position history for the C10 witness. -/
def hT : History :=
  { stack := [eW0], position := 0, maxLength := 30, shouldSaveHistory := true,
    readOnly := false, initialItem := none, defaultBlock := "paragraph" }

/-- C10, witness: a direct `save` of the current snapshot at a concrete input
appends and increments position and count. -/
theorem c10_witness :
    (save envNull hT eW0.state).1.stack.length = hT.stack.length + 1 ∧
    (save envNull hT eW0.state).1.position = hT.position + 1 ∧
    count (save envNull hT eW0.state).1 = count hT + 1 :=
  c10_save_has_no_guard envNull hT eW0 (by decide) (by decide) (by decide)

/-- C2: the invariant `0 <= position < length(stack)` — which entails that the
stack is never empty — holds for the freshly constructed history and is
preserved by every operation: `save`, a completed `undo`, a completed `redo`,
and `clear`. -/
theorem c2_stack_invariant (env : Env) (h : History) (s : Snapshot)
    (hu hr : History) (opsu opsr : List Op) (M : Nat) (db : String)
    (hInv : StackInv h)
    (hundo : undo env h = some (hu, opsu))
    (hredo : redo env h = some (hr, opsr)) :
    StackInv (save env h s).1 ∧ StackInv hu ∧ StackInv hr ∧
    StackInv (History.clear h).1 ∧ StackInv (initialHistory M db) := by
  obtain ⟨hp0, hplt⟩ := hInv
  refine ⟨save_stack_inv env h s hp0, ?_, ?_, ?_, ?_⟩
  · rcases undo_spec env h hu opsu hundo with
      ⟨_, rfl, _⟩ | ⟨hc, hpos, _, hlen, _, _, _, _, _, _⟩
    · exact ⟨hp0, hplt⟩
    · rw [canUndo_iff] at hc
      exact ⟨by rw [hpos]; omega, by rw [hpos, hlen]; omega⟩
  · rcases redo_spec env h hr opsr hredo with
      ⟨_, rfl, _⟩ | ⟨hc, rfl, _⟩
    · exact ⟨hp0, hplt⟩
    · rw [canRedo_iff] at hc
      unfold count at hc
      exact ⟨by dsimp only; omega, by dsimp only; omega⟩
  · unfold History.clear StackInv
    dsimp only
    cases h.initialItem <;> simp
  · unfold initialHistory History.clear StackInv
    simp

def undoResW : History × List Op := (undo envNull hW).getD (hW, [])
def redoResW : History × List Op := (redo envNull hW).getD (hW, [])

/-- C2, witness: the invariant after each operation on a concrete history. -/
theorem c2_witness :
    StackInv (save envNull hW [blkB]).1 ∧ StackInv undoResW.1 ∧
    StackInv redoResW.1 ∧ StackInv (History.clear hW).1 ∧
    StackInv (initialHistory 30 "paragraph") :=
  c2_stack_invariant envNull hW [blkB] undoResW.1 redoResW.1 undoResW.2 redoResW.2
    30 "paragraph" (by decide) (by decide) (by decide)

/-- C5: with the read-only flag set, `canUndo()` and `canRedo()` are false
regardless of the position; and whenever `canUndo()`/`canRedo()` is false the
corresponding `undo()`/`redo()` call is a silent no-op: it completes without
error, returns the state unchanged (stack, position, suppression flag), and
issues no calls. -/
theorem c5_readonly_guard (env : Env) (h g : History) :
    (h.readOnly = true → canUndo h = false ∧ canRedo h = false) ∧
    (canUndo g = false → undo env g = some (g, [])) ∧
    (canRedo g = false → redo env g = some (g, [])) := by
  refine ⟨?_, ?_, ?_⟩
  · intro hro
    unfold canUndo canRedo
    rw [hro]
    simp
  · intro hc
    unfold undo
    simp [hc]
  · intro hc
    unfold redo
    simp [hc]

def hRO : History := { hW with readOnly := true }

/-- C5, witness: a concrete read-only history refuses undo and redo, and both
calls are no-ops. -/
theorem c5_witness :
    (canUndo hRO = false ∧ canRedo hRO = false) ∧
    undo envNull hRO = some (hRO, []) ∧
    redo envNull hRO = some (hRO, []) :=
  ⟨(c5_readonly_guard envNull hRO hRO).1 (by decide),
   (c5_readonly_guard envNull hRO hRO).2.1 (by decide),
   (c5_readonly_guard envNull hRO hRO).2.2 (by decide)⟩

/-- C6: `editorDidUpdate(newState)` returns false when `newState` is empty,
true when its length differs from the snapshot at the current position, and
otherwise true exactly when the deep-equal (stringify) comparison fails; and a
`registerChange` observation whose saved snapshot is deep-equal to the current
one never commits — the stack, hence `count()`, is unchanged. -/
theorem c6_editor_did_update (h : History) (e : Entry) (ns : Snapshot)
    (obs : ObsEnv) (env : Env)
    (he : jsGet h.stack h.position = some e)
    (hsb : obs.savedBlocks = e.state) :
    editorDidUpdate h ns =
      some (if ns.length = 0 then false
            else if ns.length ≠ e.state.length then true
            else decide (e.state ≠ ns)) ∧
    ∃ h2 ops, registerChange obs env h = some (h2, ops) ∧
      h2.stack = h.stack ∧ count h2 = count h := by
  constructor
  · unfold editorDidUpdate
    rw [he]
    by_cases h0 : ns.length = 0
    · simp [h0]
    · by_cases h1 : ns.length ≠ e.state.length
      · simp [h0, h1]
      · simp [h0, h1]
  · obtain ⟨ro, sb⟩ := obs
    dsimp only at hsb
    subst hsb
    cases ro with
    | true =>
      refine ⟨{ h with readOnly := true }, [], ?_, rfl, rfl⟩
      unfold registerChange
      simp
    | false =>
      cases hf : h.shouldSaveHistory with
      | false =>
        refine ⟨{ h with readOnly := false, shouldSaveHistory := true }, [], ?_, rfl, rfl⟩
        unfold registerChange
        simp [hf]
      | true =>
        have hed0 :
            editorDidUpdate
              { h with readOnly := false, shouldSaveHistory := true } e.state
              = some false := by
          unfold editorDidUpdate
          dsimp only
          rw [he]
          by_cases h0 : e.state.length = 0
          · simp [h0]
          · simp [h0]
        refine ⟨{ h with readOnly := false, shouldSaveHistory := true }, [], ?_, rfl, rfl⟩
        unfold registerChange
        simp only [hf]
        simp [hed0]

def obsW : ObsEnv := { domReadOnly := false, savedBlocks := eW0.state }

/-- C6, witness: the guard evaluated on a concrete history, and a deep-equal
observation leaving the stack unchanged. -/
theorem c6_witness :
    editorDidUpdate hW [blkB] =
      some (if ([blkB] : Snapshot).length = 0 then false
            else if ([blkB] : Snapshot).length ≠ eW0.state.length then true
            else decide (eW0.state ≠ [blkB])) ∧
    ∃ h2 ops, registerChange obsW envNull hW = some (h2, ops) ∧
      h2.stack = hW.stack ∧ count h2 = count hW :=
  c6_editor_did_update hW eW0 [blkB] obsW envNull (by decide) (by decide)

/-- C7: every `undo()`/`redo()` call that proceeds records the suppression
write (`shouldSaveHistory := false`) as the first event of its trace — before
any replay mutation — and leaves the flag false; and a `registerChange`
observation arriving with the flag false while the editor is not read-only
skips the commit entirely (no calls, stack and position untouched) and resets
the flag to true, so exactly one spurious observation is swallowed per
undo/redo call. -/
theorem c7_suppression_flag (env : Env) (h g w : History)
    (hu hr : History) (opsu opsr : List Op) (obs : ObsEnv)
    (hcu : canUndo h = true) (hundo : undo env h = some (hu, opsu))
    (hcr : canRedo g = true) (hredo : redo env g = some (hr, opsr))
    (hflag : w.shouldSaveHistory = false) (hro : obs.domReadOnly = false) :
    hu.shouldSaveHistory = false ∧ (∃ rest, opsu = Op.suppress :: rest) ∧
    hr.shouldSaveHistory = false ∧ (∃ rest, opsr = Op.suppress :: rest) ∧
    registerChange obs env w =
      some ({ w with readOnly := false, shouldSaveHistory := true }, []) := by
  refine ⟨?_, ?_, ?_, ?_, ?_⟩
  · rcases undo_spec env h hu opsu hundo with
      ⟨hcf, _, _⟩ | ⟨_, _, _, _, _, _, _, _, hflg, _⟩
    · rw [hcf] at hcu; exact absurd hcu (by simp)
    · exact hflg
  · rcases undo_spec env h hu opsu hundo with
      ⟨hcf, _, _⟩ | ⟨_, _, _, _, _, _, _, _, _, rest, hops⟩
    · rw [hcf] at hcu; exact absurd hcu (by simp)
    · exact ⟨Op.onUpdate :: rest, hops⟩
  · rcases redo_spec env g hr opsr hredo with
      ⟨hcf, _, _⟩ | ⟨_, rfl, _⟩
    · rw [hcf] at hcr; exact absurd hcr (by simp)
    · rfl
  · rcases redo_spec env g hr opsr hredo with
      ⟨hcf, _, _⟩ | ⟨_, _, rest, hops⟩
    · rw [hcf] at hcr; exact absurd hcr (by simp)
    · exact ⟨rest, hops⟩
  · obtain ⟨ro, sb⟩ := obs
    dsimp only at hro
    subst hro
    unfold registerChange
    simp [hflag]

def hFlagOff : History := { hW with shouldSaveHistory := false }

/-- C7, witness: concrete undo and redo traces lead with the suppression
write, and a suppressed observation resets the flag without committing. -/
theorem c7_witness :
    undoResW.1.shouldSaveHistory = false ∧
    (∃ rest, undoResW.2 = Op.suppress :: rest) ∧
    redoResW.1.shouldSaveHistory = false ∧
    (∃ rest, redoResW.2 = Op.suppress :: rest) ∧
    registerChange obsW envNull hFlagOff =
      some ({ hFlagOff with readOnly := false, shouldSaveHistory := true }, []) :=
  c7_suppression_flag envNull hW hW hFlagOff undoResW.1 redoResW.1
    undoResW.2 redoResW.2 obsW (by decide) (by decide) (by decide) (by decide)
    (by decide) (by decide)

/-- C8, counterexample: a recorded caret offset of 0 is present and is not the
sentinel -1, yet the restorer places the caret at the end of the block — the
truthiness guard `caretIndex && caretIndex !== -1` treats 0 like the absent
value, so the claimed branch choice fails at offset 0. -/
theorem c8_counterexample :
    setCaretIndex 0 (some 0) = [Op.caretToBlock 0 "end"] ∧
    setCaretIndex 0 (some 0) ≠ [Op.deferredSetPos 0 0] := by
  decide

/-- C8, amended: when the recorded offset is present, nonzero and not the
sentinel -1, the restorer sets the caret at that offset with a deferred
placement; otherwise — offset absent, the sentinel -1, or the offset 0 — it
places the caret at the end of the block. -/
theorem c8_amended (index : Int) (c : Option Int) :
    (∀ k, c = some k → k ≠ 0 → k ≠ -1 →
      setCaretIndex index c = [Op.deferredSetPos index k]) ∧
    ((c = none ∨ c = some 0 ∨ c = some (-1)) →
      setCaretIndex index c = [Op.caretToBlock index "end"]) := by
  constructor
  · rintro k rfl hk0 hk1
    show (if k ≠ 0 ∧ k ≠ -1 then [Op.deferredSetPos index k]
          else [Op.caretToBlock index "end"]) = [Op.deferredSetPos index k]
    rw [if_pos ⟨hk0, hk1⟩]
  · rintro (rfl | rfl | rfl) <;> simp [setCaretIndex]

/-- C8, witness: the amended branch choice at concrete offsets 7 and 0. -/
theorem c8_witness :
    setCaretIndex 2 (some 7) = [Op.deferredSetPos 2 7] ∧
    setCaretIndex 2 (some 0) = [Op.caretToBlock 2 "end"] :=
  ⟨(c8_amended 2 (some 7)).1 7 rfl (by decide) (by decide),
   (c8_amended 2 (some 0)).2 (Or.inr (Or.inl rfl))⟩

def env9a : Env := { envNull with currentBlockIndex := 2, blocksCount := 3 }
def env9b : Env := { envNull with currentBlockIndex := 1, blocksCount := 2 }
def env9u : Env := { envNull with blocksCount := 2 }

/-- The history after committing `[a,b,c]` and then `[a,c]`. -/
def h9 : History :=
  (save env9b (save env9a (initialHistory 30 "paragraph") [blkA, blkB, blkC]).1
    [blkA, blkC]).1

def h9undone : History × List Op := (undo env9u h9).getD (h9, [])
def h9redone : History × List Op := (redo env9u h9undone.1).getD (h9undone.1, [])

/-- C9: after committing `[a,b,c]` and then `[a,c]` (block `b` removed),
`undo()` emits an insert of block `b` — its type and data — at its original
position 1, and the subsequent `redo()` emits a delete of the block at
position 1. -/
theorem c9_deletion_roundtrip :
    undo env9u h9 = some h9undone ∧
    Op.insert blkB.type blkB.data 1 true ∈ h9undone.2 ∧
    redo env9u h9undone.1 = some h9redone ∧
    Op.delete 1 ∈ h9redone.2 := by
  decide

def s4x : Snapshot := [{ id := some "a", type := "paragraph", data := [("text", "1")] }]
def s4y : Snapshot := [{ id := some "a", type := "paragraph", data := [("text", "2")] }]
def s4z : Snapshot := [{ id := some "a", type := "paragraph", data := [("text", "3")] }]

def hC4 : History :=
  (undoN envNull 2
    (saveSeq envNull (initialHistory 1 "paragraph") [s4x, s4y, s4z])).getD
    (initialHistory 1 "paragraph")

/-- C4, counterexample: with `maxLength = 1`, committing N = 3 snapshots
truncates the older entries; after 2 of the N-1 = 2 undo steps the entry at
the current position stores the second committed snapshot, not the first one
the claim promises for that intermediate position. -/
theorem c4_counterexample :
    undoN envNull 2
        (saveSeq envNull (initialHistory 1 "paragraph") [s4x, s4y, s4z]) =
      some hC4 ∧
    (jsGet hC4.stack hC4.position).map Entry.state = some s4y ∧
    s4y ≠ s4x := by
  decide

/-- C4, amended: for a stack built by committing `N ≥ 1` snapshots with
read-only false, provided `N ≤ maxLength` (so no truncation occurs — the
restriction the counterexample forces), the position after the commits is `N`;
when the `N-1` undo calls and the `N-1` redo calls all complete, the position
returns to `N`, and each intermediate position's stored snapshot is exactly
the originally committed one: after `k` undos the entry at the current
position holds the `(N-k)`-th committed snapshot, and after `k` redos the
`(1+k)`-th. -/
theorem c4_amended (M : Nat) (db : String) (env envU envR : Env)
    (states : List Snapshot) (N : Nat) (hU hR : History)
    (hNlen : states.length = N) (hN1 : 1 ≤ N) (hNM : N ≤ M)
    (hundos : undoN envU (N - 1) (saveSeq env (initialHistory M db) states) = some hU)
    (hredos : redoN envR (N - 1) hU = some hR) :
    (saveSeq env (initialHistory M db) states).position = (N : Int) ∧
    hR.position = (N : Int) ∧
    (∀ k hk, k ≤ N - 1 →
      undoN envU k (saveSeq env (initialHistory M db) states) = some hk →
      hk.position = (N : Int) - k ∧
      (hk.stack.map Entry.state).get? (N - k) = states.get? (N - k - 1)) ∧
    (∀ k hk, k ≤ N - 1 → redoN envR k hU = some hk →
      hk.position = 1 + (k : Int) ∧
      (hk.stack.map Entry.state).get? (1 + k) = states.get? k) := by
  have h0ne : (initialHistory M db).stack ≠ [] := by
    unfold initialHistory History.clear
    simp
  have h0len1 : (initialHistory M db).stack.length = 1 := by
    unfold initialHistory History.clear
    simp
  have h0pos : (initialHistory M db).position = 0 := rfl
  have h0ro : (initialHistory M db).readOnly = false := rfl
  have h0max : (initialHistory M db).maxLength = M := rfl
  have h0tail : (initialHistory M db).position
      = ((initialHistory M db).stack.length : Int) - 1 := by
    rw [h0pos, h0len1]
    simp
  obtain ⟨sm, sp, sl, sro, smax, _, _⟩ :=
    saveSeq_spec env states (initialHistory M db) h0ne h0tail
      (by rw [h0len1, h0max, hNlen]; omega)
  have hNpos : (saveSeq env (initialHistory M db) states).position = (N : Int) := by
    rw [sp, h0pos, hNlen]
    simp
  have hNro : (saveSeq env (initialHistory M db) states).readOnly = false := by
    rw [sro, h0ro]
  have hNstlen : (saveSeq env (initialHistory M db) states).stack.length = 1 + N := by
    rw [sl, h0len1, hNlen]
  have hundoPart : ∀ k hk, k ≤ N - 1 →
      undoN envU k (saveSeq env (initialHistory M db) states) = some hk →
      hk.position = (N : Int) - k ∧
      (hk.stack.map Entry.state).get? (N - k) = states.get? (N - k - 1) := by
    intro k hk hkle hrun
    obtain ⟨u1, u2, _, _⟩ :=
      undoN_spec envU k (saveSeq env (initialHistory M db) states) hk hNro
        (by rw [hNpos]; omega) hrun
    constructor
    · rw [u1, hNpos]
    · rw [u2, sm]
      have hlm : ((initialHistory M db).stack.map Entry.state).length ≤ N - k := by
        rw [List.length_map, h0len1]
        omega
      rw [List.get?_append_right hlm, List.length_map, h0len1]
  obtain ⟨uU1, uU2, uU3, uU4⟩ :=
    undoN_spec envU (N - 1) (saveSeq env (initialHistory M db) states) hU hNro
      (by rw [hNpos]; omega) hundos
  have hUpos : hU.position = 1 := by
    rw [uU1, hNpos]
    omega
  have hUstlen : hU.stack.length = 1 + N := by
    rw [uU3, hNstlen]
  have hUmap : hU.stack.map Entry.state
      = (initialHistory M db).stack.map Entry.state ++ states := by
    rw [uU2, sm]
  have hredoPart : ∀ k hk, k ≤ N - 1 → redoN envR k hU = some hk →
      hk.position = 1 + (k : Int) ∧
      (hk.stack.map Entry.state).get? (1 + k) = states.get? k := by
    intro k hk hkle hrun
    obtain ⟨r1, r2, _⟩ := redoN_spec envR k hU hk uU4
      (by unfold count; rw [hUstlen, hUpos]; push_cast; omega) hrun
    constructor
    · rw [r1, hUpos]
    · rw [r2, hUmap]
      have hlm : ((initialHistory M db).stack.map Entry.state).length ≤ 1 + k := by
        rw [List.length_map, h0len1]
        omega
      rw [List.get?_append_right hlm, List.length_map, h0len1]
      congr 1
      omega
  have hRfinal := hredoPart (N - 1) hR (le_refl _) hredos
  refine ⟨hNpos, ?_, hundoPart, hredoPart⟩
  rw [hRfinal.1]
  omega

def h4saved : History := saveSeq envNull (initialHistory 30 "paragraph") [s4x, s4y]
def h4U : History := (undoN envNull 1 h4saved).getD h4saved
def h4R : History := (redoN envNull 1 h4U).getD h4U

/-- C4, witness: two snapshots committed within the retention bound; one undo
then one redo returns the position to 2, and after the undo the entry at the
current position stores the first committed snapshot. -/
theorem c4_witness :
    h4saved.position = 2 ∧ h4R.position = 2 ∧
    (h4U.stack.map Entry.state).get? 1 = some s4x := by
  have hmain := c4_amended 30 "paragraph" envNull envNull envNull [s4x, s4y] 2 h4U h4R
    (by decide) (by decide) (by decide) (by decide) (by decide)
  refine ⟨?_, ?_, ?_⟩
  · exact_mod_cast hmain.1
  · exact_mod_cast hmain.2.1
  · have h3 := hmain.2.2.1 1 h4U (by decide) (by decide)
    simpa using h3.2
